import Mathlib

/-!
Verification of the Dailies-Rust-Transcoder core against its specification.

The Rust sources are shallowly embedded: machine floats (`f32`/`f64`) are
modelled as exact rationals (`Rat`); only order comparisons and exact decimal
constants occur in the claims under study, so the idealisation is faithful on
the inputs considered.  Timestamps (`chrono::DateTime<Utc>`) are modelled as
naturals; UUIDs as naturals; the filesystem is passed explicitly as a
predicate.  The `BinaryHeap` of `queue.rs` is modelled as a list kept sorted
(descending) by the `Ord` instance of `PriorityJob`; popping the head of the
sorted list returns a maximal element, exactly as `BinaryHeap::pop` does
(ties between equal keys are broken in an unspecified order by the real heap,
and in insertion order by this model).
-/

/-- Job status (`job.rs`, enum `JobStatus`). -/
inductive JobStatus
  | pending
  | running
  | completed
  | failed
  | cancelled
  deriving DecidableEq, Repr

/-- Priority level (`job.rs`, enum `Priority` with `Low = 0 .. Urgent = 3`). -/
inductive Priority
  | low
  | normal
  | high
  | urgent
  deriving DecidableEq, Repr

/-- The numeric discriminant of a priority, as in the Rust enum declaration;
the derived `Ord` on `Priority` compares these discriminants. -/
def Priority.toNat : Priority → Nat
  | .low => 0
  | .normal => 1
  | .high => 2
  | .urgent => 3

/-- A minimal model of `serde_json::Value`, enough for the `config` field of a
job and the dispatch check of `worker.rs`. -/
inductive JsonV
  | null
  | bool (b : Bool)
  | str (s : String)
  | num (n : Int)
  | obj (fields : List (String × JsonV))

/-- Lookup of a key in a JSON object field list (first match wins, as in
`serde_json::Map::get`). -/
def lookupField : List (String × JsonV) → String → Option JsonV
  | [], _ => none
  | (k, v) :: rest, key => if k = key then some v else lookupField rest key

/-- `Value::get(key)` on objects; `None` on any other variant. -/
def JsonV.get : JsonV → String → Option JsonV
  | .obj fields, key => lookupField fields key
  | _, _ => none

/-- `Value::as_str`. -/
def JsonV.as_str : JsonV → Option String
  | .str s => some s
  | _ => none

/-- The transcode job (`job.rs`, struct `Job`).  `progress` is an `f32` in the
source, modelled as a rational; timestamps are modelled as naturals. -/
structure Job where
  id : Nat
  input_path : String
  output_path : String
  status : JobStatus
  priority : Priority
  progress : Rat
  error_message : Option String
  created_at : Nat
  started_at : Option Nat
  completed_at : Option Nat
  config : JsonV

/-- `Job::new` (`job.rs`).  The freshly drawn UUID and `Utc::now()` are passed
explicitly as `id` and `now`. -/
def Job.new (id : Nat) (now : Nat) (input_path output_path : String)
    (config : JsonV) (priority : Priority) : Job :=
  { id := id
    input_path := input_path
    output_path := output_path
    status := .pending
    priority := priority
    progress := 0
    error_message := none
    created_at := now
    started_at := none
    completed_at := none
    config := config }

/-- `Job::start` (`job.rs`), with `Utc::now()` passed as `now`. -/
def Job.start (j : Job) (now : Nat) : Job :=
  { j with status := .running, started_at := some now, progress := 0 }

/-- `f32::clamp(lo, hi)` for non-NaN inputs: the Rust definition
`if self < min then min else if self > max then max else self`. -/
def clampRat (x lo hi : Rat) : Rat :=
  if x < lo then lo else if x > hi then hi else x

/-- `Job::update_progress` (`job.rs`): `self.progress = progress.clamp(0.0, 100.0)`. -/
def Job.update_progress (j : Job) (progress : Rat) : Job :=
  { j with progress := clampRat progress 0 100 }

/-- `Job::complete` (`job.rs`). -/
def Job.complete (j : Job) (now : Nat) : Job :=
  { j with status := .completed, completed_at := some now, progress := 100 }

/-- `Job::fail` (`job.rs`). -/
def Job.fail (j : Job) (now : Nat) (error : String) : Job :=
  { j with status := .failed, completed_at := some now, error_message := some error }

/-- `Job::cancel` (`job.rs`): sets the status to Cancelled and stamps
`completed_at`, with no precondition on the current status. -/
def Job.cancel (j : Job) (now : Nat) : Job :=
  { j with status := .cancelled, completed_at := some now }

/-- The heap token of `queue.rs` (struct `PriorityJob`). -/
structure PriorityJob where
  job_id : Nat
  priority : Priority
  created_at : Nat
  deriving DecidableEq, Repr

/-- The `Ord` instance of `PriorityJob` (`queue.rs`): higher priority first,
then older (`created_at`) jobs first via the reversed timestamp comparison. -/
def PriorityJob.cmp (a b : PriorityJob) : Ordering :=
  match compare a.priority.toNat b.priority.toNat with
  | .eq => compare b.created_at a.created_at
  | o => o

/-- `a` pops no later than `b`: `a` is greater than or equal to `b` in the
heap order of `PriorityJob`. -/
def pjGE (a b : PriorityJob) : Prop :=
  PriorityJob.cmp a b ≠ Ordering.lt

instance (a b : PriorityJob) : Decidable (pjGE a b) := by
  unfold pjGE
  infer_instance

/-- Insertion into the sorted-list model of `BinaryHeap<PriorityJob>`:
the pushed token is placed before the first strictly smaller token, keeping
the list sorted descending in the heap order. -/
def heapPush (t : PriorityJob) : List PriorityJob → List PriorityJob
  | [] => [t]
  | u :: us => if pjGE t u then t :: u :: us else u :: heapPush t us

/-- The queue error cases relevant here (`error.rs`, enum `TranscodeError`). -/
inductive TranscodeError
  | jobAlreadyExists (id : String)
  | invalidInput (msg : String)
  | jobNotFound (id : String)
  deriving DecidableEq, Repr

/-- State of `JobQueue` (`queue.rs`): the `DashMap<JobId, Job>` is modelled as
an association list with distinct keys, the `BinaryHeap<PriorityJob>` as a
descending-sorted list. -/
structure QueueState where
  jobs : List (Nat × Job)
  pending_queue : List PriorityJob

/-- `JobQueue::new`. -/
def emptyQueue : QueueState :=
  { jobs := [], pending_queue := [] }

/-- `DashMap::get` on the association-list model. -/
def findJob : List (Nat × Job) → Nat → Option Job
  | [], _ => none
  | (k, j) :: rest, id => if k = id then some j else findJob rest id

/-- In-place modification of one entry, as done through `DashMap::get_mut`. -/
def updateEntry (m : List (Nat × Job)) (id : Nat) (f : Job → Job) :
    List (Nat × Job) :=
  m.map fun p => if p.1 = id then (p.1, f p.2) else p

/-- `JobQueue::add_job` (`queue.rs`).  The filesystem check
`job.input_path.exists()` is performed against the explicit predicate `fs`. -/
def JobQueue.add_job (fs : String → Bool) (s : QueueState) (job : Job) :
    Except TranscodeError (Nat × QueueState) :=
  let job_id := job.id
  if (findJob s.jobs job_id).isSome then
    .error (.jobAlreadyExists (toString job_id))
  else if fs job.input_path = false then
    .error (.invalidInput ("Input file does not exist: " ++ job.input_path))
  else
    let job2 : Job := { job with status := JobStatus.pending }
    let pj : PriorityJob :=
      { job_id := job_id, priority := job.priority, created_at := job.created_at }
    .ok (job_id,
      { jobs := (job_id, job2) :: s.jobs,
        pending_queue := heapPush pj s.pending_queue })

/-- The pop loop of `JobQueue::get_next_job`: pop tokens until one references
a job that still exists and is Pending; return that id and the remaining
heap. -/
def getNextLoop (jobs : List (Nat × Job)) :
    List PriorityJob → Option Nat × List PriorityJob
  | [] => (none, [])
  | pj :: rest =>
    match findJob jobs pj.job_id with
    | some job =>
      if job.status = JobStatus.pending then (some pj.job_id, rest)
      else getNextLoop jobs rest
    | none => getNextLoop jobs rest

/-- `JobQueue::get_next_job` (`queue.rs`): the popped-but-stale tokens are
gone from the heap afterwards; the job map is not modified. -/
def JobQueue.get_next_job (s : QueueState) : Option Nat × QueueState :=
  ((getNextLoop s.jobs s.pending_queue).1,
   { s with pending_queue := (getNextLoop s.jobs s.pending_queue).2 })

/-- `JobQueue::cancel_job` (`queue.rs`): if the id is present, apply
`Job::cancel` to the stored job unconditionally; otherwise `JobNotFound`. -/
def JobQueue.cancel_job (now : Nat) (s : QueueState) (id : Nat) :
    Except TranscodeError QueueState :=
  if (findJob s.jobs id).isSome then
    .ok { s with jobs := updateEntry s.jobs id (fun j => j.cancel now) }
  else
    .error (.jobNotFound (toString id))

/-- Whether the stored job with the given id exists and is Pending. -/
def isPendingIn (jobs : List (Nat × Job)) (id : Nat) : Bool :=
  match findJob jobs id with
  | some j => j.status == JobStatus.pending
  | none => false

/-- The sequence of job ids produced by calling `get_next_job` repeatedly
until it returns `None`. -/
def drainQueue (s : QueueState) : List Nat :=
  match h : JobQueue.get_next_job s with
  | (some i, s2) => i :: drainQueue s2
  | (none, _) => []
termination_by s.pending_queue.length
decreasing_by
  simp only [JobQueue.get_next_job] at h
  rcases hr : getNextLoop s.jobs s.pending_queue with ⟨o, rest⟩
  rw [hr] at h
  injection h with ha hb
  subst ha
  subst hb
  have key : ∀ (l r2 : List PriorityJob) (i2 : Nat),
      getNextLoop s.jobs l = (some i2, r2) → r2.length < l.length := by
    intro l
    induction l with
    | nil => intro r2 i2 hc; simp [getNextLoop] at hc
    | cons pj tl ih =>
      intro r2 i2 hc
      rw [getNextLoop] at hc
      split at hc
      · split at hc
        · cases hc
          exact Nat.lt_succ_self _
        · exact Nat.lt_trans (ih r2 i2 hc) (Nat.lt_succ_self _)
      · exact Nat.lt_trans (ih r2 i2 hc) (Nat.lt_succ_self _)
  exact key s.pending_queue rest i hr

/-- One pass over the heap keeping the ids of still-Pending jobs, in heap
order; `drainQueue` is proved below to produce exactly this list. -/
def drainLoop (jobs : List (Nat × Job)) : List PriorityJob → List Nat
  | [] => []
  | pj :: rest =>
    if isPendingIn jobs pj.job_id then pj.job_id :: drainLoop jobs rest
    else drainLoop jobs rest

/-- The heap token built by `add_job` for a given job. -/
def jobToken (j : Job) : PriorityJob :=
  { job_id := j.id, priority := j.priority, created_at := j.created_at }

/-- A sequence of `add_job` calls; calls that return an error leave the
queue unchanged. -/
def addAll (fs : String → Bool) (s : QueueState) : List Job → QueueState
  | [] => s
  | j :: js =>
    match JobQueue.add_job fs s j with
    | .ok r => addAll fs r.2 js
    | .error _ => addAll fs s js

/-- A sequence of `cancel_job` calls; calls that return an error leave the
queue unchanged. -/
def cancelAll (now : Nat) (s : QueueState) : List Nat → QueueState
  | [] => s
  | c :: cs =>
    match JobQueue.cancel_job now s c with
    | .ok s2 => cancelAll now s2 cs
    | .error _ => cancelAll now s cs

/-- The queue obtained from a fresh `JobQueue::new` by a sequence of
`add_job` calls followed by a sequence of `cancel_job` calls. -/
def afterAddsAndCancels (fs : String → Bool) (now : Nat) (js : List Job)
    (cs : List Nat) : QueueState :=
  cancelAll now (addAll fs emptyQueue js) cs

/-- A filesystem on which every path exists. -/
def fs0 : String → Bool := fun _ => true

/-- Concrete jobs for witness instantiations. -/
def jA : Job := Job.new 1 10 "a.mxf" "a.mov" JsonV.null Priority.normal

def jB : Job := Job.new 2 11 "b.mxf" "b.mov" JsonV.null Priority.high

def jC : Job := Job.new 3 12 "c.mxf" "c.mov" JsonV.null Priority.normal

def js0 : List Job := [jA, jB, jC]

def cs0 : List Nat := [3]

/-- A job already Completed, stored under id 7. -/
def j3 : Job :=
  { Job.new 7 0 "done.mxf" "done.mov" JsonV.null Priority.normal with
    status := JobStatus.completed, progress := 100, completed_at := some 1 }

def s3 : QueueState := { jobs := [(7, j3)], pending_queue := [] }

/-- A Running job whose progress was pushed to 100 by `update_progress`. -/
def j4 : Job :=
  ((Job.new 4 0 "in.mxf" "out.mov" JsonV.null Priority.normal).start 1).update_progress 100

/-- A Completed job whose progress was pulled back to 50 by `update_progress`. -/
def j4c : Job :=
  ((Job.new 4 0 "in.mxf" "out.mov" JsonV.null Priority.normal).complete 1).update_progress 50

/-- The BWF dispatch check of `WorkerPool::process_job` (`worker.rs`):
`job.config.get("type").and_then(as_str).map(s == "bwf_extraction").unwrap_or(false)`. -/
def is_bwf_job (config : JsonV) : Bool :=
  (((config.get "type").bind JsonV.as_str).map
    (fun s => s == "bwf_extraction")).getD false

/-- The two branches taken by `process_job` after the check. -/
inductive JobRoute
  | bwfPipeline
  | transcodePipeline
  deriving DecidableEq, Repr

/-- Dispatch of `process_job`: the BWF pipeline when the check succeeds,
otherwise config is parsed as a `TranscodeConfig` and the encoder runs. -/
def process_job_route (config : JsonV) : JobRoute :=
  if is_bwf_job config then JobRoute.bwfPipeline else JobRoute.transcodePipeline

/-- A config whose `kind` field (as the spec describes) is `bwf_extraction`,
with no `type` field. -/
def kindOnlyConfig : JsonV := JsonV.obj [("kind", JsonV.str "bwf_extraction")]

/-- Numeric value of a digit character. -/
def digitVal (c : Char) : Nat := c.toNat - '0'.toNat

/-- The fixed-shape window matched by the progress regex
`time=(\d{2}):(\d{2}):(\d{2}\.\d{2})` of `transcode.rs` at one position:
returns the four digit groups (hours, minutes, whole seconds,
centiseconds) of the three captures. -/
def matchTimeAt : List Char → Option (Nat × Nat × Nat × Nat)
  | 't' :: 'i' :: 'm' :: 'e' :: '=' :: h1 :: h2 :: ':' :: m1 :: m2 :: ':'
      :: s1 :: s2 :: '.' :: c1 :: c2 :: _ =>
    if h1.isDigit && h2.isDigit && m1.isDigit && m2.isDigit &&
        s1.isDigit && s2.isDigit && c1.isDigit && c2.isDigit then
      some (10 * digitVal h1 + digitVal h2,
        10 * digitVal m1 + digitVal m2,
        10 * digitVal s1 + digitVal s2,
        10 * digitVal c1 + digitVal c2)
    else none
  | _ => none

/-- Leftmost match of the time pattern in a line, as `Regex::captures`
returns it. -/
def findTimeIn : List Char → Option (Nat × Nat × Nat × Nat)
  | [] => none
  | c :: rest =>
    match matchTimeAt (c :: rest) with
    | some r => some r
    | none => findTimeIn rest

/-- Longest prefix of digits and the remainder. -/
def takeDigits : List Char → List Char × List Char
  | [] => ([], [])
  | c :: cs =>
    if c.isDigit then
      ((takeDigits cs).1.cons c, (takeDigits cs).2)
    else ([], c :: cs)

/-- Value of a digit string (most significant first). -/
def digitsToNat (ds : List Char) : Nat :=
  ds.foldl (fun acc c => 10 * acc + digitVal c) 0

/-- The fps pattern `fps=\s*(\d+\.?\d*)` of `transcode.rs` at one position:
after `fps=` and optional whitespace, one or more integer digits, then an
optional dot and further digits.  Returned as the raw capture pieces: the
integer part and the list of fraction digits. -/
def matchFpsAt : List Char → Option (Nat × List Char)
  | 'f' :: 'p' :: 's' :: '=' :: rest =>
    let rest2 := rest.dropWhile Char.isWhitespace
    let ip := (takeDigits rest2).1
    if ip.isEmpty then none
    else
      match (takeDigits rest2).2 with
      | '.' :: r2 => some (digitsToNat ip, (takeDigits r2).1)
      | _ => some (digitsToNat ip, [])
  | _ => none

/-- Leftmost match of the fps pattern in a line. -/
def findFpsIn : List Char → Option (Nat × List Char)
  | [] => none
  | c :: rest =>
    match matchFpsAt (c :: rest) with
    | some r => some r
    | none => findFpsIn rest

/-- The numeric value of a captured fps string `I[.F]`, as Rust's
`str::parse::<f32>` reads it. -/
def fpsValue (p : Nat × List Char) : Rat :=
  (p.1 : Rat) + (digitsToNat p.2 : Rat) / ((10 : Rat) ^ p.2.length)

/-- The numeric value of the captured seconds string `SS.ff`, as Rust's
`str::parse::<f64>` reads it. -/
def secondsValue (ss ff : Nat) : Rat := (ss : Rat) + (ff : Rat) / 100

/-- One iteration of the stderr loop of `Transcoder::execute_ffmpeg`
(`transcode.rs`): when the time regex matches, compute
`current_time = hours*3600 + minutes*60 + seconds` and emit
`progress = ((current_time / duration) * 100).min(100)` when `duration > 0`
(else 0), paired with the optional fps capture value; when the time regex
does not match, no callback is made. -/
def processLine (duration : Rat) (line : List Char) : Option (Rat × Option Rat) :=
  match findTimeIn line with
  | none => none
  | some (hours, minutes, ss, ff) =>
    some ((if 0 < duration then
        min (((hours * 3600 + minutes * 60 + secondsValue ss ff : Rat) / duration) * 100) 100
      else 0), (findFpsIn line).map fpsValue)

/-- The scenario line of the spec: `time=00:00:15.00 fps=47.8` with probed
duration 60.0. -/
def scenarioLine : List Char := String.toList "time=00:00:15.00 fps=47.8"

/-- `FRAME_RATE` constant of `bwf.rs`. -/
def FRAME_RATE : Rat := 23.976

/-- `MULTIPLIER` constant of `bwf.rs`. -/
def MULTIPLIER : Rat := 2004.005263

/-- `calculate_bext_timereference_23976` (`tauri-integration/rust/bwf.rs`):
validation guards followed by the frame-based TimeReference formula; the
`as u64` cast truncates the non-negative product, i.e. takes its floor. -/
def calculate_bext_timereference_23976 (hours minutes seconds frames : Nat) :
    Except String Nat :=
  if hours > 23 then .error "Hours must be 0-23"
  else if minutes > 59 then .error "Minutes must be 0-59"
  else if seconds > 59 then .error "Seconds must be 0-59"
  else if frames > 23 then .error "Frames must be 0-23 for 23.976fps"
  else
    .ok (Int.floor ((hours * 60 * 60 * FRAME_RATE + minutes * 60 * FRAME_RATE
      + seconds * FRAME_RATE + frames) * MULTIPLIER)).toNat

/-- Video codec options (`config.rs`, enum `VideoCodec`). -/
inductive VideoCodec
  | prores
  | proresKs
  | dnxhd
  | dnxhr
  | h264
  | h265
  | copy
  deriving DecidableEq, Repr

/-- Audio codec options (`config.rs`, enum `AudioCodec`). -/
inductive AudioCodec
  | pcm16
  | pcm24
  | aac
  | copy
  deriving DecidableEq, Repr

/-- Container formats (`config.rs`, enum `ContainerFormat`). -/
inductive ContainerFormat
  | mov
  | mp4
  | mxf
  | wav
  | auto
  deriving DecidableEq, Repr

/-- ProRes profiles (`config.rs`, enum `ProResProfile`). -/
inductive ProResProfile
  | proxy
  | lt
  | standard
  | hq
  | prores4444
  | prores4444xq
  deriving DecidableEq, Repr

/-- DNxHR profiles (`config.rs`, enum `DnxhrProfile`). -/
inductive DnxhrProfile
  | lb
  | sq
  | hq
  | hqx
  | dnxhr444
  deriving DecidableEq, Repr

/-- `ProResProfile::profile_number` (`config.rs`). -/
def ProResProfile.profile_number : ProResProfile → Int
  | .proxy => 0
  | .lt => 1
  | .standard => 2
  | .hq => 3
  | .prores4444 => 4
  | .prores4444xq => 5

/-- `DnxhrProfile::as_str` (`config.rs`). -/
def DnxhrProfile.as_str : DnxhrProfile → String
  | .lb => "dnxhr_lb"
  | .sq => "dnxhr_sq"
  | .hq => "dnxhr_hq"
  | .hqx => "dnxhr_hqx"
  | .dnxhr444 => "dnxhr_444"

/-- The inline pixel-format match in the DNxHR branch of `to_ffmpeg_args`
(`config.rs`): 8-bit for LB/SQ/HQ, 10-bit for HQX/444. -/
def dnxhr_pix_fmt : DnxhrProfile → String
  | .lb | .sq | .hq => "yuv422p"
  | .hqx | .dnxhr444 => "yuv422p10le"

/-- `TranscodeConfig` (`config.rs`).  `frame_rate` is an `f32` in the source,
modelled as a rational. -/
structure TranscodeConfig where
  video_codec : VideoCodec
  audio_codec : AudioCodec
  container : ContainerFormat
  video_bitrate : Option String
  audio_bitrate : Option String
  audio_sample_rate : Option Nat
  resolution : Option String
  frame_rate : Option Rat
  prores_profile : Option ProResProfile
  dnxhr_profile : Option DnxhrProfile
  extra_args : List String
  hw_accel : Bool
  extract_bwf : Bool
  map_all_audio : Bool
  lut_path : Option String
  create_ale : Bool

/-- The compile-time `cfg!(target_os = ...)` selector of `config.rs`. -/
inductive Os
  | macos
  | linux
  | windows
  deriving DecidableEq, Repr

/-- `TranscodeConfig::to_ffmpeg_args` (`config.rs`): the sequential pushes of
the source rendered as list concatenation, in the same order; the per-OS
`cfg!` blocks are selected by the `os` parameter. -/
def to_ffmpeg_args (os : Os) (cfg : TranscodeConfig) (input output : String) :
    List String :=
  (if cfg.hw_accel then
    (match os with
     | .macos => ["-hwaccel", "videotoolbox"]
     | .linux => ["-hwaccel", "vaapi"]
     | .windows => ["-hwaccel", "d3d11va"])
   else [])
  ++ ["-i", input, "-y"]
  ++ (match cfg.video_codec with
      | .prores => ["-c:v", "prores"]
      | .proresKs =>
        ["-c:v", "prores_ks"]
        ++ (match cfg.prores_profile with
            | some p => ["-profile:v", toString p.profile_number]
            | none => [])
      | .dnxhd => ["-c:v", "dnxhd"]
      | .dnxhr =>
        ["-c:v", "dnxhd"]
        ++ (match cfg.dnxhr_profile with
            | some p => ["-profile:v", p.as_str]
            | none => [])
        ++ (match cfg.dnxhr_profile with
            | some p => ["-pix_fmt", dnxhr_pix_fmt p]
            | none => [])
      | .h264 =>
        ["-c:v"]
        ++ (if cfg.hw_accel then
              (match os with
               | .macos => ["h264_videotoolbox"]
               | _ => ["libx264"])
            else ["libx264"])
        ++ (if cfg.hw_accel then [] else ["-preset", "medium"])
      | .h265 =>
        ["-c:v"]
        ++ (if cfg.hw_accel then
              (match os with
               | .macos => ["hevc_videotoolbox"]
               | _ => ["libx265"])
            else ["libx265"])
      | .copy => ["-c:v", "copy"])
  ++ (match cfg.video_bitrate with
      | some b => ["-b:v", b]
      | none => [])
  ++ (match cfg.resolution with
      | some r => ["-s", r]
      | none => [])
  ++ (match cfg.frame_rate with
      | some fps => ["-r", toString fps]
      | none => [])
  ++ (match cfg.lut_path with
      | some p => ["-vf", "lut3d=file=\x27" ++ p ++ "\x27"]
      | none => [])
  ++ (match cfg.audio_codec with
      | .pcm16 => ["-c:a", "pcm_s16le"]
      | .pcm24 => ["-c:a", "pcm_s24le"]
      | .aac => ["-c:a", "aac"]
      | .copy => ["-c:a", "copy"])
  ++ (match cfg.audio_sample_rate with
      | some sr => ["-ar", toString sr]
      | none => [])
  ++ (match cfg.audio_bitrate with
      | some b => ["-b:a", b]
      | none => [])
  ++ (if cfg.map_all_audio then ["-map", "0:v:0", "-map", "0:a"] else [])
  ++ ["-threads", "0"]
  ++ (match cfg.container with
      | .mov => ["-f", "mov"]
      | .mp4 => ["-f", "mp4"]
      | .mxf => ["-f", "mxf"]
      | .wav => ["-f", "wav"]
      | .auto => [])
  ++ cfg.extra_args
  ++ [output]

/-- The `dnxhr_hqx` preset of `config.rs`: DNxHR with the HQX profile over
the struct defaults. -/
def dnxhrHqxConfig : TranscodeConfig :=
  { video_codec := VideoCodec.dnxhr
    audio_codec := AudioCodec.pcm24
    container := ContainerFormat.mov
    video_bitrate := none
    audio_bitrate := none
    audio_sample_rate := some 48000
    resolution := none
    frame_rate := none
    prores_profile := some ProResProfile.hq
    dnxhr_profile := some DnxhrProfile.hqx
    extra_args := []
    hw_accel := true
    extract_bwf := false
    map_all_audio := true
    lut_path := none
    create_ale := false }

/-- Characterisation of the heap order: `pjGE a b` holds exactly when `a` has
strictly higher priority, or equal priority and an earlier-or-equal
`created_at` (the max-heap on `(priority, -created_at)`). -/
theorem pjGE_iff (a b : PriorityJob) :
    pjGE a b ↔ b.priority.toNat < a.priority.toNat ∨
      (a.priority.toNat = b.priority.toNat ∧ a.created_at ≤ b.created_at) := by
  unfold pjGE PriorityJob.cmp
  rcases Nat.lt_trichotomy a.priority.toNat b.priority.toNat with h | h | h
  · simp [Nat.compare_eq_lt.2 h, Nat.lt_asymm h, Nat.ne_of_lt h]
  · simp only [h, Nat.compare_eq_eq.2 rfl]
    rcases Nat.lt_trichotomy a.created_at b.created_at with h2 | h2 | h2
    · simp [Nat.compare_eq_gt.2 h2, Nat.le_of_lt h2]
    · simp [h2, Nat.compare_eq_eq.2 rfl]
    · simp [Nat.compare_eq_lt.2 h2, Nat.lt_irrefl, Nat.not_le.2 h2]
  · simp [Nat.compare_eq_gt.2 h, h]

/-- Strict heap order: `PriorityJob.cmp a b = .gt`. -/
theorem pjGT_iff (a b : PriorityJob) :
    PriorityJob.cmp a b = Ordering.gt ↔ b.priority.toNat < a.priority.toNat ∨
      (a.priority.toNat = b.priority.toNat ∧ a.created_at < b.created_at) := by
  unfold PriorityJob.cmp
  rcases Nat.lt_trichotomy a.priority.toNat b.priority.toNat with h | h | h
  · simp [Nat.compare_eq_lt.2 h, Nat.lt_asymm h, Nat.ne_of_lt h]
  · simp only [h, Nat.compare_eq_eq.2 rfl]
    rcases Nat.lt_trichotomy a.created_at b.created_at with h2 | h2 | h2
    · simp [Nat.compare_eq_gt.2 h2, h2]
    · simp [h2, Nat.compare_eq_eq.2 rfl, Nat.lt_irrefl]
    · simp [Nat.compare_eq_lt.2 h2, Nat.lt_asymm h2]
  · simp [Nat.compare_eq_gt.2 h, h]

/-- The heap order is total. -/
theorem pjGE_total (a b : PriorityJob) : pjGE a b ∨ pjGE b a := by
  rw [pjGE_iff, pjGE_iff]
  omega

/-- The heap order is transitive. -/
theorem pjGE_trans {a b c : PriorityJob} (h1 : pjGE a b) (h2 : pjGE b c) : pjGE a c := by
  rw [pjGE_iff] at h1 h2 ⊢
  omega

/-- Strictly greater excludes greater-or-equal the other way. -/
theorem pjGT_not_GE {a b : PriorityJob} (h : PriorityJob.cmp a b = Ordering.gt) :
    ¬ pjGE b a := by
  rw [pjGT_iff] at h
  rw [pjGE_iff]
  omega

theorem heapPush_perm (t : PriorityJob) (l : List PriorityJob) :
    List.Perm (heapPush t l) (t :: l) := by
  induction l with
  | nil => rfl
  | cons u us ih =>
    unfold heapPush
    split
    · rfl
    · exact ((ih.cons u).trans (List.Perm.swap t u us))

theorem heapPush_pairwise (t : PriorityJob) {l : List PriorityJob}
    (h : l.Pairwise pjGE) : (heapPush t l).Pairwise pjGE := by
  induction l with
  | nil => simp [heapPush]
  | cons u us ih =>
    rcases List.pairwise_cons.1 h with ⟨hu, hus⟩
    unfold heapPush
    by_cases hge : pjGE t u
    · simp only [if_pos hge]
      refine List.pairwise_cons.2 ⟨?_, h⟩
      intro x hx
      rw [List.mem_cons] at hx
      rcases hx with rfl | hx
      · exact hge
      · exact pjGE_trans hge (hu x hx)
    · simp only [if_neg hge]
      have hut : pjGE u t := (pjGE_total t u).resolve_left hge
      refine List.pairwise_cons.2 ⟨?_, ih hus⟩
      intro x hx
      have hx2 := (heapPush_perm t us).mem_iff.1 hx
      rw [List.mem_cons] at hx2
      rcases hx2 with rfl | hx2
      · exact hut
      · exact hu x hx2

theorem getNextLoop_some_length {jobs : List (Nat × Job)}
    {l rest : List PriorityJob} {i : Nat}
    (h : getNextLoop jobs l = (some i, rest)) : rest.length < l.length := by
  induction l generalizing rest with
  | nil => simp [getNextLoop] at h
  | cons pj tl ih =>
    rw [getNextLoop] at h
    split at h
    · split at h
      · cases h
        exact Nat.lt_succ_self _
      · exact Nat.lt_trans (ih h) (Nat.lt_succ_self _)
    · exact Nat.lt_trans (ih h) (Nat.lt_succ_self _)

theorem isPendingIn_true_iff (jobs : List (Nat × Job)) (id : Nat) :
    isPendingIn jobs id = true ↔
      ∃ j, findJob jobs id = some j ∧ j.status = JobStatus.pending := by
  unfold isPendingIn
  rcases hf : findJob jobs id with _ | j
  · simp
  · simp [beq_iff_eq]

theorem drainLoop_eq_filter_map (jobs : List (Nat × Job)) (l : List PriorityJob) :
    drainLoop jobs l =
      (l.filter (fun t => isPendingIn jobs t.job_id)).map PriorityJob.job_id := by
  induction l with
  | nil => rfl
  | cons pj rest ih =>
    unfold drainLoop
    by_cases hp : isPendingIn jobs pj.job_id
    · simp [hp, ih]
    · simp [hp, ih, List.filter_cons]

theorem drainLoop_cons (jobs : List (Nat × Job)) (pj : PriorityJob)
    (rest : List PriorityJob) :
    drainLoop jobs (pj :: rest) =
      if isPendingIn jobs pj.job_id then pj.job_id :: drainLoop jobs rest
      else drainLoop jobs rest := rfl

theorem drainLoop_cons_of_some {jobs : List (Nat × Job)}
    {l rest : List PriorityJob} {i : Nat}
    (h : getNextLoop jobs l = (some i, rest)) :
    drainLoop jobs l = i :: drainLoop jobs rest := by
  induction l generalizing rest with
  | nil => simp [getNextLoop] at h
  | cons pj tl ih =>
    rw [getNextLoop] at h
    rcases hf : findJob jobs pj.job_id with _ | job
    · rw [hf] at h
      have hp : isPendingIn jobs pj.job_id = false := by
        unfold isPendingIn
        rw [hf]
      rw [drainLoop_cons, hp]
      simpa using ih h
    · rw [hf] at h
      simp only at h
      by_cases hs : job.status = JobStatus.pending
      · rw [if_pos hs] at h
        injection h with h1 h2
        injection h1 with h1
        subst h1
        subst h2
        have hp : isPendingIn jobs pj.job_id = true :=
          (isPendingIn_true_iff jobs pj.job_id).2 ⟨job, hf, hs⟩
        rw [drainLoop_cons, hp]
        simp
      · rw [if_neg hs] at h
        have hp : isPendingIn jobs pj.job_id = false := by
          unfold isPendingIn
          rw [hf]
          exact beq_eq_false_iff_ne.mpr hs
        rw [drainLoop_cons, hp]
        simpa using ih h

theorem drainLoop_nil_of_none {jobs : List (Nat × Job)}
    {l rest : List PriorityJob}
    (h : getNextLoop jobs l = (none, rest)) :
    drainLoop jobs l = [] := by
  induction l generalizing rest with
  | nil => rfl
  | cons pj tl ih =>
    rw [getNextLoop] at h
    rcases hf : findJob jobs pj.job_id with _ | job
    · rw [hf] at h
      have hp : isPendingIn jobs pj.job_id = false := by
        unfold isPendingIn
        rw [hf]
      rw [drainLoop_cons, hp]
      simpa using ih h
    · rw [hf] at h
      simp only at h
      by_cases hs : job.status = JobStatus.pending
      · rw [if_pos hs] at h
        cases h
      · rw [if_neg hs] at h
        have hp : isPendingIn jobs pj.job_id = false := by
          unfold isPendingIn
          rw [hf]
          exact beq_eq_false_iff_ne.mpr hs
        rw [drainLoop_cons, hp]
        simpa using ih h

/-- Repeatedly calling `get_next_job` until `None` yields exactly the
still-Pending ids of the heap, in heap order. -/
theorem drainQueue_eq_drainLoop (s : QueueState) :
    drainQueue s = drainLoop s.jobs s.pending_queue := by
  generalize hn : s.pending_queue.length = n
  induction n using Nat.strong_induction_on generalizing s with
  | _ n ih =>
    rw [drainQueue]
    split
    · rename_i i s2 h
      simp only [JobQueue.get_next_job] at h
      rcases hr : getNextLoop s.jobs s.pending_queue with ⟨o, rest⟩
      rw [hr] at h
      injection h with h1 h2
      subst h1
      subst h2
      have hlen : rest.length < n := hn ▸ getNextLoop_some_length hr
      have heq := ih rest.length hlen { s with pending_queue := rest } rfl
      simp only at heq
      rw [heq]
      exact (drainLoop_cons_of_some hr).symm
    · rename_i s2 h
      simp only [JobQueue.get_next_job] at h
      rcases hr : getNextLoop s.jobs s.pending_queue with ⟨o, rest⟩
      rw [hr] at h
      injection h with h1 h2
      subst h1
      exact (drainLoop_nil_of_none hr).symm

theorem add_job_ok {fs : String → Bool} {s : QueueState} {job : Job}
    (h1 : findJob s.jobs job.id = none) (h2 : fs job.input_path = true) :
    JobQueue.add_job fs s job = .ok (job.id,
      { jobs := (job.id, { job with status := JobStatus.pending }) :: s.jobs,
        pending_queue := heapPush (jobToken job) s.pending_queue }) := by
  simp [JobQueue.add_job, jobToken, h1, h2]

theorem findJob_cons (k : Nat) (j : Job) (rest : List (Nat × Job)) (i : Nat) :
    findJob ((k, j) :: rest) i = if k = i then some j else findJob rest i := rfl

theorem updateEntry_cons (k : Nat) (j : Job) (rest : List (Nat × Job))
    (id : Nat) (f : Job → Job) :
    updateEntry ((k, j) :: rest) id f =
      (if k = id then (k, f j) else (k, j)) :: updateEntry rest id f := rfl

theorem findJob_updateEntry (m : List (Nat × Job)) (id : Nat) (f : Job → Job)
    (i : Nat) :
    findJob (updateEntry m id f) i =
      if i = id then (findJob m i).map f else findJob m i := by
  induction m with
  | nil => simp [updateEntry, findJob]
  | cons p rest ih =>
    rcases p with ⟨k, j⟩
    rw [updateEntry_cons]
    by_cases hk : k = id
    · subst hk
      rw [if_pos rfl, findJob_cons, findJob_cons]
      by_cases hi : k = i
      · subst hi
        simp
      · have hi2 : ¬ i = k := fun e => hi e.symm
        simp only [if_neg hi, if_neg hi2]
        rw [ih, if_neg hi2]
    · rw [if_neg hk, findJob_cons, findJob_cons]
      by_cases hi : k = i
      · subst hi
        simp [hk]
      · simp only [if_neg hi]
        exact ih

theorem cancel_cancel (j : Job) (now : Nat) :
    Job.cancel (Job.cancel j now) now = Job.cancel j now := rfl

theorem cancelAll_pending (now : Nat) (cs : List Nat) :
    ∀ s : QueueState, (cancelAll now s cs).pending_queue = s.pending_queue := by
  induction cs with
  | nil => intro s; rfl
  | cons c cs ih =>
    intro s
    unfold cancelAll JobQueue.cancel_job
    by_cases hc : (findJob s.jobs c).isSome
    · rw [if_pos hc]
      exact ih _
    · rw [if_neg hc]
      exact ih _

theorem cancelAll_findJob (now : Nat) (cs : List Nat) :
    ∀ (s : QueueState) (i : Nat),
      findJob (cancelAll now s cs).jobs i =
        if i ∈ cs then (findJob s.jobs i).map (fun j => j.cancel now)
        else findJob s.jobs i := by
  induction cs with
  | nil => intro s i; simp [cancelAll]
  | cons c cs ih =>
    intro s i
    unfold cancelAll JobQueue.cancel_job
    by_cases hc : (findJob s.jobs c).isSome
    · rw [if_pos hc, ih]
      simp only [findJob_updateEntry]
      by_cases hi : i ∈ cs
      · rw [if_pos hi, if_pos (List.mem_cons_of_mem c hi)]
        by_cases hic : i = c
        · rw [if_pos hic]
          rw [Option.map_map]
          have : (fun j => Job.cancel j now) ∘ (fun j => Job.cancel j now) =
              fun j => Job.cancel j now := by
            funext j
            exact cancel_cancel j now
          rw [this]
        · rw [if_neg hic]
      · rw [if_neg hi]
        by_cases hic : i = c
        · subst hic
          rw [if_pos rfl, if_pos (List.mem_cons_self i cs)]
        · rw [if_neg hic, if_neg (by simp [List.mem_cons, hic, hi])]
    · rw [if_neg hc]
      rw [ih]
      have hnone : findJob s.jobs c = none := by
        rcases h : findJob s.jobs c with _ | j
        · rfl
        · rw [h] at hc; simp at hc
      by_cases hi : i ∈ cs
      · rw [if_pos hi, if_pos (List.mem_cons_of_mem c hi)]
      · rw [if_neg hi]
        by_cases hic : i = c
        · subst hic
          rw [if_pos (List.mem_cons_self i cs), hnone]
          rfl
        · rw [if_neg (by simp [List.mem_cons, hic, hi])]

/-- `add_job` either rejects (duplicate id or missing input) leaving the state
unreferenced, or returns the state extended by the job (status forced to
Pending) and its heap token. -/
theorem add_job_cases (fs : String → Bool) (s : QueueState) (job : Job) :
    JobQueue.add_job fs s job = .error (.jobAlreadyExists (toString job.id)) ∨
    JobQueue.add_job fs s job =
      .error (.invalidInput ("Input file does not exist: " ++ job.input_path)) ∨
    JobQueue.add_job fs s job = .ok (job.id,
      { jobs := (job.id, { job with status := JobStatus.pending }) :: s.jobs,
        pending_queue := heapPush (jobToken job) s.pending_queue }) := by
  by_cases h1 : (findJob s.jobs job.id).isSome
  · left
    simp [JobQueue.add_job, h1]
  · by_cases h2 : fs job.input_path = false
    · right; left
      simp [JobQueue.add_job, h1, h2]
    · right; right
      simp [JobQueue.add_job, jobToken, h1, h2]

/-- Any sequence of `add_job` calls keeps the heap sorted. -/
theorem addAll_pairwise (fs : String → Bool) (js : List Job) :
    ∀ s : QueueState, s.pending_queue.Pairwise pjGE →
      (addAll fs s js).pending_queue.Pairwise pjGE := by
  induction js with
  | nil => intro s h; exact h
  | cons j js ih =>
    intro s h
    unfold addAll
    rcases add_job_cases fs s j with hc | hc | hc <;> rw [hc]
    · exact ih s h
    · exact ih s h
    · exact ih _ (heapPush_pairwise _ h)

theorem addAll_findJob (fs : String → Bool) (js : List Job) :
    ∀ s : QueueState,
      (∀ j ∈ js, findJob s.jobs j.id = none) →
      (∀ j ∈ js, fs j.input_path = true) →
      (js.map Job.id).Nodup →
      ∀ i, findJob (addAll fs s js).jobs i =
        match js.find? (fun j => j.id == i) with
        | some j => some { j with status := JobStatus.pending }
        | none => findJob s.jobs i := by
  induction js with
  | nil => intro s _ _ _ i; rfl
  | cons j js ih =>
    intro s hfree hfs hno i
    have hok := add_job_ok
      (hfree j (List.mem_cons_self j js)) (hfs j (List.mem_cons_self j js))
    unfold addAll
    rw [hok]
    have hjid : j.id ∉ js.map Job.id := by
      have : (j.id :: js.map Job.id).Nodup := by simpa using hno
      exact (List.nodup_cons.1 this).1
    have hno2 : (js.map Job.id).Nodup := by
      have : (j.id :: js.map Job.id).Nodup := by simpa using hno
      exact (List.nodup_cons.1 this).2
    have hfree2 : ∀ r ∈ js,
        findJob ((j.id, { j with status := JobStatus.pending }) :: s.jobs) r.id = none := by
      intro r hr
      rw [findJob_cons, if_neg, hfree r (List.mem_cons_of_mem j hr)]
      intro e
      exact hjid (e ▸ List.mem_map_of_mem Job.id hr)
    have hfs2 : ∀ r ∈ js, fs r.input_path = true :=
      fun r hr => hfs r (List.mem_cons_of_mem j hr)
    have hrec := ih
      { jobs := (j.id, { j with status := JobStatus.pending }) :: s.jobs,
        pending_queue := heapPush (jobToken j) s.pending_queue }
      hfree2 hfs2 hno2 i
    by_cases hji : j.id = i
    · rw [List.find?_cons_of_pos _ (by simpa using hji)]
      have hnone : js.find? (fun r => r.id == i) = none := by
        refine List.find?_eq_none.2 ?_
        intro r hr
        simp only [beq_iff_eq]
        intro e
        exact hjid ((hji.trans e.symm) ▸ List.mem_map_of_mem Job.id hr)
      rw [hrec, hnone]
      rw [findJob_cons, if_pos hji]
    · rw [List.find?_cons_of_neg _ (by simpa using hji)]
      rw [hrec]
      rcases hfind : js.find? (fun r => r.id == i) with _ | r
      · rw [hfind]
        dsimp only
        rw [findJob_cons, if_neg hji]
      · rw [hfind]

theorem addAll_pending_perm (fs : String → Bool) (js : List Job) :
    ∀ s : QueueState,
      (∀ j ∈ js, findJob s.jobs j.id = none) →
      (∀ j ∈ js, fs j.input_path = true) →
      (js.map Job.id).Nodup →
      List.Perm (addAll fs s js).pending_queue (js.map jobToken ++ s.pending_queue) := by
  induction js with
  | nil => intro s _ _ _; simp [addAll]
  | cons j js ih =>
    intro s hfree hfs hno
    have hok := add_job_ok
      (hfree j (List.mem_cons_self j js)) (hfs j (List.mem_cons_self j js))
    unfold addAll
    rw [hok]
    have hjid : j.id ∉ js.map Job.id := by
      have : (j.id :: js.map Job.id).Nodup := by simpa using hno
      exact (List.nodup_cons.1 this).1
    have hno2 : (js.map Job.id).Nodup := by
      have : (j.id :: js.map Job.id).Nodup := by simpa using hno
      exact (List.nodup_cons.1 this).2
    have hfree2 : ∀ r ∈ js,
        findJob ((j.id, { j with status := JobStatus.pending }) :: s.jobs) r.id = none := by
      intro r hr
      rw [findJob_cons, if_neg, hfree r (List.mem_cons_of_mem j hr)]
      intro e
      exact hjid (e ▸ List.mem_map_of_mem Job.id hr)
    have hfs2 : ∀ r ∈ js, fs r.input_path = true :=
      fun r hr => hfs r (List.mem_cons_of_mem j hr)
    have hrec := ih
      { jobs := (j.id, { j with status := JobStatus.pending }) :: s.jobs,
        pending_queue := heapPush (jobToken j) s.pending_queue }
      hfree2 hfs2 hno2
    refine hrec.trans ?_
    refine (List.Perm.append_left (js.map jobToken) (heapPush_perm (jobToken j) _)).trans ?_
    simpa using List.perm_middle

theorem getNextLoop_fst_none (jobs : List (Nat × Job))
    (h : ∀ id j, findJob jobs id = some j → j.status ≠ JobStatus.pending) :
    ∀ l, (getNextLoop jobs l).1 = none := by
  intro l
  induction l with
  | nil => rfl
  | cons pj tl ih =>
    rw [getNextLoop]
    rcases hf : findJob jobs pj.job_id with _ | job
    · exact ih
    · simp only
      rw [if_neg (h pj.job_id job hf)]
      exact ih

theorem find?_id_of_nodup {js : List Job} (hno : (js.map Job.id).Nodup)
    {A : Job} (hA : A ∈ js) :
    js.find? (fun j => j.id == A.id) = some A := by
  induction js with
  | nil => cases hA
  | cons j js ih =>
    have hjid : j.id ∉ js.map Job.id := by
      have : (j.id :: js.map Job.id).Nodup := by simpa using hno
      exact (List.nodup_cons.1 this).1
    have hno2 : (js.map Job.id).Nodup := by
      have : (j.id :: js.map Job.id).Nodup := by simpa using hno
      exact (List.nodup_cons.1 this).2
    rcases List.mem_cons.1 hA with rfl | hA2
    · simp [List.find?_cons]
    · have hne2 : (j.id == A.id) = false := by
        simp only [beq_eq_false_iff_ne]
        intro e
        exact hjid (e ▸ List.mem_map_of_mem Job.id hA2)
      simp only [List.find?_cons]
      rw [hne2]
      exact ih hno2 hA2

/-- C1.  Single delivery of pending jobs: after any sequence of successful
`add_job` calls (distinct ids, existing inputs) and any sequence of
`cancel_job` calls, repeatedly calling `get_next_job` until it returns `None`
returns each job id at most once, returns exactly the added ids that were not
cancelled, and `get_next_job` returns `None` on any queue state in which no
stored job is Pending. -/
theorem single_delivery (fs : String → Bool) (now : Nat) (js : List Job)
    (cs : List Nat)
    (hno : (js.map Job.id).Nodup)
    (hfs : ∀ j ∈ js, fs j.input_path = true) :
    (drainQueue (afterAddsAndCancels fs now js cs)).Nodup ∧
    (∀ i, i ∈ drainQueue (afterAddsAndCancels fs now js cs) ↔
      (i ∈ js.map Job.id ∧ i ∉ cs)) ∧
    (∀ t : QueueState,
      (∀ id j, findJob t.jobs id = some j → j.status ≠ JobStatus.pending) →
      (JobQueue.get_next_job t).1 = none) := by
  have hfree0 : ∀ j ∈ js, findJob emptyQueue.jobs j.id = none := fun _ _ => rfl
  have hperm := addAll_pending_perm fs js emptyQueue hfree0 hfs hno
  have hfind0 := addAll_findJob fs js emptyQueue hfree0 hfs hno
  have hpend : (afterAddsAndCancels fs now js cs).pending_queue =
      (addAll fs emptyQueue js).pending_queue :=
    cancelAll_pending now cs (addAll fs emptyQueue js)
  have hfindc := cancelAll_findJob now cs (addAll fs emptyQueue js)
  have hperm2 : List.Perm ((addAll fs emptyQueue js).pending_queue.map
      PriorityJob.job_id) (js.map Job.id) := by
    have h1 := hperm.map PriorityJob.job_id
    simpa [List.map_map, Function.comp, jobToken, emptyQueue] using h1
  have hidnodup : ((addAll fs emptyQueue js).pending_queue.map
      PriorityJob.job_id).Nodup := hperm2.nodup_iff.2 hno
  have hpmem : ∀ i, isPendingIn (afterAddsAndCancels fs now js cs).jobs i = true ↔
      (i ∈ js.map Job.id ∧ i ∉ cs) := by
    intro i
    rw [isPendingIn_true_iff]
    unfold afterAddsAndCancels
    rw [hfindc, hfind0 i]
    constructor
    · rintro ⟨jj, hjj, hst⟩
      by_cases hic : i ∈ cs
      · rw [if_pos hic] at hjj
        rcases hfd : js.find? (fun j => j.id == i) with _ | r
        · rw [hfd] at hjj
          cases hjj
        · rw [hfd] at hjj
          injection hjj with hjj
          rw [← hjj] at hst
          cases hst
      · rw [if_neg hic] at hjj
        rcases hfd : js.find? (fun j => j.id == i) with _ | r
        · rw [hfd] at hjj
          cases hjj
        · have hmem := List.mem_of_find?_eq_some hfd
          have hid : r.id = i := by
            have := List.find?_some hfd
            simpa using this
          exact ⟨hid ▸ List.mem_map_of_mem Job.id hmem, hic⟩
    · rintro ⟨hmem, hic⟩
      rcases List.mem_map.1 hmem with ⟨j0, hj0, hj0id⟩
      have hfd : js.find? (fun j => j.id == i) = some j0 := by
        have := find?_id_of_nodup hno hj0
        rwa [hj0id] at this
      rw [if_neg hic, hfd]
      exact ⟨{ j0 with status := JobStatus.pending }, rfl, rfl⟩
  have hdrain : drainQueue (afterAddsAndCancels fs now js cs) =
      (((addAll fs emptyQueue js).pending_queue.filter
        (fun t => isPendingIn (afterAddsAndCancels fs now js cs).jobs t.job_id)).map
        PriorityJob.job_id) := by
    rw [drainQueue_eq_drainLoop, drainLoop_eq_filter_map, hpend]
  refine ⟨?_, ?_, ?_⟩
  · rw [hdrain]
    exact hidnodup.sublist
      ((List.filter_sublist (addAll fs emptyQueue js).pending_queue).map
        PriorityJob.job_id)
  · intro i
    rw [hdrain]
    constructor
    · intro h
      rcases List.mem_map.1 h with ⟨t, ht, htid⟩
      rcases List.mem_filter.1 ht with ⟨ht1, ht2⟩
      exact (hpmem i).1 (htid ▸ ht2)
    · rintro hi
      have hp := (hpmem i).2 hi
      have hmem1 : i ∈ (addAll fs emptyQueue js).pending_queue.map
          PriorityJob.job_id := hperm2.mem_iff.2 hi.1
      rcases List.mem_map.1 hmem1 with ⟨t, ht, htid⟩
      refine List.mem_map.2 ⟨t, List.mem_filter.2 ⟨ht, ?_⟩, htid⟩
      rw [htid]
      exact hp
  · intro t ht
    simp only [JobQueue.get_next_job]
    exact getNextLoop_fst_none t.jobs ht t.pending_queue

theorem drainLoop_append (jobs : List (Nat × Job)) (x y : List PriorityJob) :
    drainLoop jobs (x ++ y) = drainLoop jobs x ++ drainLoop jobs y := by
  rw [drainLoop_eq_filter_map, drainLoop_eq_filter_map, drainLoop_eq_filter_map,
    List.filter_append, List.map_append]

theorem pairwise_exists_split {l : List PriorityJob} (hpw : l.Pairwise pjGE)
    {tA tB : PriorityJob} (hA : tA ∈ l) (hB : tB ∈ l)
    (hgt : PriorityJob.cmp tA tB = Ordering.gt) :
    ∃ l1 l2 l3, l = l1 ++ tA :: l2 ++ tB :: l3 := by
  induction l with
  | nil => cases hA
  | cons u us ih =>
    rcases List.pairwise_cons.1 hpw with ⟨hu, hus⟩
    have hAB : tA ≠ tB := by
      intro e
      rw [e] at hgt
      rw [pjGT_iff] at hgt
      omega
    rcases List.mem_cons.1 hA with rfl | hA2
    · have hB2 : tB ∈ us := by
        rcases List.mem_cons.1 hB with e | h2
        · exact absurd e.symm hAB
        · exact h2
      rcases List.append_of_mem hB2 with ⟨l2, l3, rfl⟩
      exact ⟨[], l2, l3, rfl⟩
    · have hBu : tB ≠ u := by
        intro e
        subst e
        exact pjGT_not_GE hgt (hu tA hA2)
      have hB2 : tB ∈ us := by
        rcases List.mem_cons.1 hB with e | h2
        · exact absurd e hBu
        · exact h2
      rcases ih hus hA2 hB2 with ⟨l1, l2, l3, rfl⟩
      exact ⟨u :: l1, l2, l3, rfl⟩

/-- C2.  Pickup order respects priority, then FIFO: after any sequence of
successful `add_job` calls, if both `A` and `B` are in the batch and `A`
strictly precedes `B` in the heap order (higher priority, or equal priority
and earlier `created_at`), then the sequence of `get_next_job` results
returns `A.id` strictly before `B.id`; and the `Ord` instance of
`PriorityJob` is exactly the max-heap order on `(priority, -created_at)`. -/
theorem priority_then_fifo (fs : String → Bool) (js : List Job) (A B : Job)
    (hA : A ∈ js) (hB : B ∈ js)
    (hno : (js.map Job.id).Nodup)
    (hfs : ∀ j ∈ js, fs j.input_path = true)
    (hord : B.priority.toNat < A.priority.toNat ∨
      (A.priority.toNat = B.priority.toNat ∧ A.created_at < B.created_at)) :
    (∃ l1 l2 l3, drainQueue (addAll fs emptyQueue js) =
      l1 ++ A.id :: l2 ++ B.id :: l3) ∧
    (∀ a b : PriorityJob, PriorityJob.cmp a b = Ordering.gt ↔
      (b.priority.toNat < a.priority.toNat ∨
        (a.priority.toNat = b.priority.toNat ∧ a.created_at < b.created_at))) := by
  have hfree0 : ∀ j ∈ js, findJob emptyQueue.jobs j.id = none := fun _ _ => rfl
  have hperm := addAll_pending_perm fs js emptyQueue hfree0 hfs hno
  have hfind0 := addAll_findJob fs js emptyQueue hfree0 hfs hno
  have hpw : (addAll fs emptyQueue js).pending_queue.Pairwise pjGE :=
    addAll_pairwise fs js emptyQueue List.Pairwise.nil
  have htA : jobToken A ∈ (addAll fs emptyQueue js).pending_queue := by
    refine hperm.mem_iff.2 ?_
    exact List.mem_append_left _ (List.mem_map_of_mem jobToken hA)
  have htB : jobToken B ∈ (addAll fs emptyQueue js).pending_queue := by
    refine hperm.mem_iff.2 ?_
    exact List.mem_append_left _ (List.mem_map_of_mem jobToken hB)
  have hgt : PriorityJob.cmp (jobToken A) (jobToken B) = Ordering.gt := by
    rw [pjGT_iff]
    simpa [jobToken] using hord
  have hpendA : isPendingIn (addAll fs emptyQueue js).jobs A.id = true := by
    rw [isPendingIn_true_iff]
    refine ⟨{ A with status := JobStatus.pending }, ?_, rfl⟩
    rw [hfind0 A.id, find?_id_of_nodup hno hA]
  have hpendB : isPendingIn (addAll fs emptyQueue js).jobs B.id = true := by
    rw [isPendingIn_true_iff]
    refine ⟨{ B with status := JobStatus.pending }, ?_, rfl⟩
    rw [hfind0 B.id, find?_id_of_nodup hno hB]
  refine ⟨?_, pjGT_iff⟩
  rcases pairwise_exists_split hpw htA htB hgt with ⟨l1, l2, l3, hsplit⟩
  refine ⟨drainLoop (addAll fs emptyQueue js).jobs l1,
    drainLoop (addAll fs emptyQueue js).jobs l2,
    drainLoop (addAll fs emptyQueue js).jobs l3, ?_⟩
  rw [drainQueue_eq_drainLoop, hsplit]
  simp [drainLoop_append, drainLoop_cons, jobToken, hpendA, hpendB]

theorem single_delivery_witness :
    (drainQueue (afterAddsAndCancels fs0 99 js0 cs0)).Nodup ∧
    (∀ i, i ∈ drainQueue (afterAddsAndCancels fs0 99 js0 cs0) ↔
      (i ∈ js0.map Job.id ∧ i ∉ cs0)) ∧
    (∀ t : QueueState,
      (∀ id j, findJob t.jobs id = some j → j.status ≠ JobStatus.pending) →
      (JobQueue.get_next_job t).1 = none) :=
  single_delivery fs0 99 js0 cs0 (by decide) (fun _ _ => rfl)

theorem priority_then_fifo_witness :
    (∃ l1 l2 l3, drainQueue (addAll fs0 emptyQueue js0) =
      l1 ++ jB.id :: l2 ++ jA.id :: l3) ∧
    (∀ a b : PriorityJob, PriorityJob.cmp a b = Ordering.gt ↔
      (b.priority.toNat < a.priority.toNat ∨
        (a.priority.toNat = b.priority.toNat ∧ a.created_at < b.created_at))) :=
  priority_then_fifo fs0 js0 jB jA
    (List.mem_cons_of_mem _ (List.mem_cons_self _ _))
    (List.mem_cons_self _ _)
    (by decide) (fun _ _ => rfl) (by decide)

/-- C3 counterexample.  `cancel_job` on a Completed job does NOT leave its
status unchanged: the stored status becomes Cancelled. -/
theorem cancel_overwrites_finished :
    (JobQueue.cancel_job 5 s3 7).map (fun s => (findJob s.jobs 7).map Job.status) =
      .ok (some JobStatus.cancelled) ∧
    (findJob s3.jobs 7).map Job.status = some JobStatus.completed ∧
    JobStatus.cancelled ≠ JobStatus.completed :=
  ⟨rfl, rfl, by decide⟩

/-- C3 amended.  `cancel_job(id)` on any stored job sets its status to
Cancelled unconditionally, regardless of the previous status (Pending,
Running, Completed, Failed or Cancelled alike); only a missing id is
rejected. -/
theorem cancel_job_sets_cancelled (now : Nat) (s : QueueState) (id : Nat)
    (j : Job) (h : findJob s.jobs id = some j) :
    JobQueue.cancel_job now s id =
      .ok { s with jobs := updateEntry s.jobs id (fun x => x.cancel now) } ∧
    findJob (updateEntry s.jobs id (fun x => x.cancel now)) id =
      some (j.cancel now) ∧
    (j.cancel now).status = JobStatus.cancelled := by
  refine ⟨?_, ?_, rfl⟩
  · simp [JobQueue.cancel_job, h]
  · rw [findJob_updateEntry, if_pos rfl, h]
    rfl

theorem cancel_job_sets_cancelled_witness :
    JobQueue.cancel_job 5 s3 7 =
      .ok { s3 with jobs := updateEntry s3.jobs 7 (fun x => x.cancel 5) } ∧
    findJob (updateEntry s3.jobs 7 (fun x => x.cancel 5)) 7 = some (j3.cancel 5) ∧
    (j3.cancel 5).status = JobStatus.cancelled :=
  cancel_job_sets_cancelled 5 s3 7 j3 rfl

/-- C4 counterexample.  The claimed invariant `progress = 100 iff status =
Completed` fails in both directions under the job operations:
`start; update_progress(100)` gives progress 100 while Running, and
`complete; update_progress(50)` gives status Completed with progress 50. -/
theorem progress_iff_completed_fails :
    j4.progress = 100 ∧ j4.status = JobStatus.running ∧
    JobStatus.running ≠ JobStatus.completed ∧
    j4c.status = JobStatus.completed ∧ j4c.progress = 50 ∧ (50 : Rat) ≠ 100 := by
  refine ⟨by decide, rfl, by decide, rfl, by decide, by decide⟩

/-- C4 amended.  `complete()` establishes progress = 100 together with status
Completed, but the biconditional is not an invariant of the job operations:
`update_progress` changes only the progress field and never the status, so it
can give progress 100 to a non-Completed job and a progress below 100 to a
Completed one. -/
theorem complete_establishes_progress_100 (j : Job) (now : Nat) (p : Rat) :
    (j.complete now).progress = 100 ∧
    (j.complete now).status = JobStatus.completed ∧
    (j.update_progress p).status = j.status :=
  ⟨rfl, rfl, rfl⟩

/-- C5 counterexample.  A config with `kind = bwf_extraction` is routed to the
transcode branch: the worker does not inspect a `kind` field at all. -/
theorem kind_field_not_dispatched :
    process_job_route kindOnlyConfig = JobRoute.transcodePipeline ∧
    kindOnlyConfig.get "kind" = some (JsonV.str "bwf_extraction") :=
  ⟨rfl, rfl⟩

/-- C5 amended.  The worker runs the BWF pipeline if and only if the config's
discriminator field `type` (not `kind`) is the string `bwf_extraction`;
otherwise the config is handed to the transcode branch. -/
theorem dispatch_on_type_field (config : JsonV) :
    process_job_route config = JobRoute.bwfPipeline ↔
      (config.get "type").bind JsonV.as_str = some "bwf_extraction" := by
  unfold process_job_route is_bwf_job
  rcases h : (config.get "type").bind JsonV.as_str with _ | s
  · simp [Option.getD]
  · by_cases hs : s = "bwf_extraction"
    · subst hs
      simp
    · simp [hs]

/-- C10.  `update_progress` stores exactly the clamp of its argument to
[0, 100] and leaves every other field of the job unchanged. -/
theorem update_progress_clamps (j : Job) (p : Rat) :
    (j.update_progress p).progress = min 100 (max 0 p) ∧
    (j.update_progress p).id = j.id ∧
    (j.update_progress p).input_path = j.input_path ∧
    (j.update_progress p).output_path = j.output_path ∧
    (j.update_progress p).status = j.status ∧
    (j.update_progress p).priority = j.priority ∧
    (j.update_progress p).error_message = j.error_message ∧
    (j.update_progress p).created_at = j.created_at ∧
    (j.update_progress p).started_at = j.started_at ∧
    (j.update_progress p).completed_at = j.completed_at ∧
    (j.update_progress p).config = j.config := by
  refine ⟨?_, rfl, rfl, rfl, rfl, rfl, rfl, rfl, rfl, rfl, rfl⟩
  show clampRat p 0 100 = min 100 (max 0 p)
  unfold clampRat
  split_ifs with h1 h2
  · rw [max_eq_left (le_of_lt h1), min_eq_right]
    norm_num
  · rw [max_eq_right (by linarith), min_eq_left (by linarith)]
  · rw [max_eq_right (not_lt.1 h1), min_eq_right (not_lt.1 h2)]

/-- C6.  For every stderr line in which the time pattern matches with captures
(HH, MM, SS.ff) and probed duration d > 0, the emitted progress is exactly
min(100, (HH·3600 + MM·60 + SS.ff) / d · 100) and the emitted fps is the
number captured by the fps pattern `fps=N[.N]` on the same line. -/
theorem progress_parsing (line : List Char) (h m ss ff : Nat) (d : Rat)
    (ht : findTimeIn line = some (h, m, ss, ff)) (hd : 0 < d) :
    processLine d line =
      some (min (((h * 3600 + m * 60 + secondsValue ss ff : Rat) / d) * 100) 100,
        (findFpsIn line).map fpsValue) := by
  unfold processLine
  rw [ht]
  dsimp only
  rw [if_pos hd]

theorem progress_parsing_witness :
    findTimeIn scenarioLine = some (0, 0, 15, 0) ∧ (0 : Rat) < 60 ∧
    processLine 60 scenarioLine = some (25, some (239 / 5)) := by
  refine ⟨by decide, by norm_num, ?_⟩
  rw [progress_parsing scenarioLine 0 0 15 0 60 (by decide) (by norm_num)]
  have hfps : findFpsIn scenarioLine = some (47, ['8']) := by decide
  rw [hfps]
  have h8 : digitsToNat ['8'] = 8 := rfl
  refine congrArg some (Prod.ext ?_ ?_)
  · show min (((0 * 3600 + 0 * 60 + secondsValue 15 0 : Rat) / 60) * 100) 100 = 25
    rw [secondsValue]
    norm_num
  · show some (fpsValue (47, ['8'])) = some (239 / 5)
    rw [fpsValue]
    dsimp only
    rw [h8]
    norm_num

/-- C7.  TimeReference(13, 20, 20, 5) computes 2307276429, which is exactly
floor(total_frames × 2004.005263) for
total_frames = 13·3600·23.976 + 20·60·23.976 + 20·23.976 + 5. -/
theorem timereference_value :
    calculate_bext_timereference_23976 13 20 20 5 = .ok 2307276429 ∧
    (Int.floor ((13 * 3600 * FRAME_RATE + 20 * 60 * FRAME_RATE
      + 20 * FRAME_RATE + 5) * MULTIPLIER)).toNat = 2307276429 := by
  constructor
  · unfold calculate_bext_timereference_23976
    norm_num [FRAME_RATE, MULTIPLIER]
    rfl
  · norm_num [FRAME_RATE, MULTIPLIER]
    rfl

/-- C8.  The TimeReference computation fails exactly when HH > 23 or MM > 59
or SS > 59 or FF > 23, and succeeds for every in-range input; in particular
(0, 0, 0, 24) fails with the frames-out-of-range error. -/
theorem timereference_validation :
    (∀ h m s f : Nat,
      (∃ v, calculate_bext_timereference_23976 h m s f = .ok v) ↔
        (h ≤ 23 ∧ m ≤ 59 ∧ s ≤ 59 ∧ f ≤ 23)) ∧
    calculate_bext_timereference_23976 0 0 0 24 =
      .error "Frames must be 0-23 for 23.976fps" := by
  constructor
  · intro h m s f
    unfold calculate_bext_timereference_23976
    split_ifs with h1 h2 h3 h4 <;> simp <;> omega
  · rfl

/-- C9.  For every config with video codec DNxHR and a DNxHR profile set, the
built argument vector contains the contiguous block selecting the DNxHD
encoder, the profile string, and the profile-derived pixel format; the pixel
format is `yuv422p` for LB/SQ/HQ and `yuv422p10le` for HQX/444. -/
theorem dnxhr_args (os : Os) (cfg : TranscodeConfig) (input output : String)
    (p : DnxhrProfile)
    (hc : cfg.video_codec = VideoCodec.dnxhr)
    (hp : cfg.dnxhr_profile = some p) :
    (∃ pre post, to_ffmpeg_args os cfg input output =
      pre ++ ["-c:v", "dnxhd", "-profile:v", p.as_str, "-pix_fmt", dnxhr_pix_fmt p]
        ++ post) ∧
    ((p = DnxhrProfile.lb ∨ p = DnxhrProfile.sq ∨ p = DnxhrProfile.hq) →
      dnxhr_pix_fmt p = "yuv422p") ∧
    ((p = DnxhrProfile.hqx ∨ p = DnxhrProfile.dnxhr444) →
      dnxhr_pix_fmt p = "yuv422p10le") := by
  refine ⟨?_, ?_, ?_⟩
  · refine ⟨(if cfg.hw_accel then
        (match os with
         | .macos => ["-hwaccel", "videotoolbox"]
         | .linux => ["-hwaccel", "vaapi"]
         | .windows => ["-hwaccel", "d3d11va"])
       else []) ++ ["-i", input, "-y"], ?_, ?_⟩
    · exact (match cfg.video_bitrate with
        | some b => ["-b:v", b]
        | none => [])
      ++ (match cfg.resolution with
          | some r => ["-s", r]
          | none => [])
      ++ (match cfg.frame_rate with
          | some fps => ["-r", toString fps]
          | none => [])
      ++ (match cfg.lut_path with
          | some q => ["-vf", "lut3d=file=\x27" ++ q ++ "\x27"]
          | none => [])
      ++ (match cfg.audio_codec with
          | .pcm16 => ["-c:a", "pcm_s16le"]
          | .pcm24 => ["-c:a", "pcm_s24le"]
          | .aac => ["-c:a", "aac"]
          | .copy => ["-c:a", "copy"])
      ++ (match cfg.audio_sample_rate with
          | some sr => ["-ar", toString sr]
          | none => [])
      ++ (match cfg.audio_bitrate with
          | some b => ["-b:a", b]
          | none => [])
      ++ (if cfg.map_all_audio then ["-map", "0:v:0", "-map", "0:a"] else [])
      ++ ["-threads", "0"]
      ++ (match cfg.container with
          | .mov => ["-f", "mov"]
          | .mp4 => ["-f", "mp4"]
          | .mxf => ["-f", "mxf"]
          | .wav => ["-f", "wav"]
          | .auto => [])
      ++ cfg.extra_args
      ++ [output]
    · unfold to_ffmpeg_args
      rw [hc, hp]
      simp [List.append_assoc]
  · rintro (rfl | rfl | rfl) <;> rfl
  · rintro (rfl | rfl) <;> rfl

theorem dnxhr_args_witness :
    (∃ pre post, to_ffmpeg_args Os.macos dnxhrHqxConfig "in.mxf" "out.mov" =
      pre ++ ["-c:v", "dnxhd", "-profile:v", DnxhrProfile.as_str DnxhrProfile.hqx,
        "-pix_fmt", dnxhr_pix_fmt DnxhrProfile.hqx] ++ post) ∧
    ((DnxhrProfile.hqx = DnxhrProfile.lb ∨ DnxhrProfile.hqx = DnxhrProfile.sq ∨
        DnxhrProfile.hqx = DnxhrProfile.hq) →
      dnxhr_pix_fmt DnxhrProfile.hqx = "yuv422p") ∧
    ((DnxhrProfile.hqx = DnxhrProfile.hqx ∨ DnxhrProfile.hqx = DnxhrProfile.dnxhr444) →
      dnxhr_pix_fmt DnxhrProfile.hqx = "yuv422p10le") :=
  dnxhr_args Os.macos dnxhrHqxConfig "in.mxf" "out.mov" DnxhrProfile.hqx rfl rfl

